import Mathlib

/-!
Shallow embedding of the crypto cost-basis engine
(`scripts/cost_basis_engine.py`) and of the tax event classifier
(`scripts/tax_engine.py`).

Modelling conventions:
* Python `Decimal` values are modelled as exact rationals (ℚ); the Python
  code performs context-precision decimal arithmetic, which agrees with ℚ
  up to the rounding tolerance the spec allows.
* Dates are modelled as integers counting days, so the Python expression
  `(d2 - d1).days` becomes `d2 - d1`.
* Python's `sorted` is a stable sort; it is modelled by the stable
  `List.insertionSort` with the same comparator (`reverse=True` becomes the
  flipped comparator, which for a stable sort is semantically identical).
* Raising an exception is modelled with `Except`; the `ValueError` raised by
  `dispose` carries the requested and available amounts that the Python
  message interpolates.
* The Python dict `_lots : asset -> list of lots` with per-asset append is
  modelled as one global insertion-ordered list; asset lookup is `filter`,
  which preserves the per-asset insertion order.
* `asset.upper()` / `method.lower()` are modelled character-wise
  (`strUpper` / `strLower`, ASCII case mapping, matching Lean's
  `Char.toUpper`/`Char.toLower` but structurally computable).  Python
  uppercases the asset both at the call sites and inside the helper
  methods; since `upper` is idempotent we apply it once, inside the
  helpers, and pass the caller's original string through.
-/

/-- Python `str.upper()` (ASCII), computed character-wise. -/
def strUpper (s : String) : String := ⟨s.data.map Char.toUpper⟩

/-- Python `str.lower()` (ASCII), computed character-wise. -/
def strLower (s : String) : String := ⟨s.data.map Char.toLower⟩

instance {ε α : Type} [DecidableEq ε] [DecidableEq α] :
    DecidableEq (Except ε α) := fun a b =>
  match a, b with
  | .ok x, .ok y =>
    if h : x = y then isTrue (by rw [h])
    else isFalse (by intro hc; cases hc; exact h rfl)
  | .error x, .error y =>
    if h : x = y then isTrue (by rw [h])
    else isFalse (by intro hc; cases hc; exact h rfl)
  | .ok _, .error _ => isFalse (by intro hc; cases hc)
  | .error _, .ok _ => isFalse (by intro hc; cases hc)

/-- Embeds `Lot` of cost_basis_engine.py (the `__post_init__` default
`remaining = quantity` is applied at the single construction site,
`add_lot`). -/
structure Lot where
  asset : String
  quantity : ℚ
  cost_per_unit : ℚ
  acquired_date : ℤ
  remaining : ℚ
  fees : ℚ
  lot_id : ℕ
  deriving DecidableEq

/-- `Lot.total_cost`: total cost including fees. -/
def Lot.total_cost (l : Lot) : ℚ :=
  l.quantity * l.cost_per_unit + l.fees

/-- `Lot.cost_basis_per_unit`: per-unit basis including allocated fees. -/
def Lot.cost_basis_per_unit (l : Lot) : ℚ :=
  if l.quantity = 0 then 0 else l.total_cost / l.quantity

/-- Embeds `DisposalResult` of cost_basis_engine.py. -/
structure DisposalResult where
  asset : String
  quantity : ℚ
  proceeds : ℚ
  cost_basis : ℚ
  gain_loss : ℚ
  acquired_date : ℤ
  disposed_date : ℤ
  is_long_term : Bool
  lot_id : ℕ
  deriving DecidableEq

/-- `DisposalResult.holding_days` property. -/
def DisposalResult.holding_days (r : DisposalResult) : ℤ :=
  r.disposed_date - r.acquired_date

/-- `CostBasisEngine.LONG_TERM_DAYS = 365`. -/
def LONG_TERM_DAYS : ℤ := 365

/-- The structured content of the `ValueError` raised by `dispose`
(its message interpolates the requested quantity and the available
amount). -/
structure InsufficientInventory where
  asset : String
  requested : ℚ
  available : ℚ
  deriving DecidableEq

/-- Embeds the mutable state of `CostBasisEngine`. -/
structure CostBasisEngine where
  method : String
  lots : List Lot
  lot_counter : ℕ
  disposals : List DisposalResult
  deriving DecidableEq

/-- `CostBasisEngine.__init__` (`self.method = method.lower()`). -/
def mkEngine (method : String) : CostBasisEngine :=
  { method := strLower method, lots := [], lot_counter := 0, disposals := [] }

/-- `CostBasisEngine.add_lot`: increments the counter, creates the lot with
`remaining = quantity`, appends it to the asset's lot list. -/
def CostBasisEngine.add_lot (e : CostBasisEngine) (asset : String)
    (quantity cost_per_unit : ℚ) (acquired_date : ℤ) (fees : ℚ) :
    CostBasisEngine × Lot :=
  let lot : Lot :=
    { asset := strUpper asset, quantity := quantity,
      cost_per_unit := cost_per_unit, acquired_date := acquired_date,
      remaining := quantity, fees := fees, lot_id := e.lot_counter + 1 }
  ({ e with lots := e.lots ++ [lot], lot_counter := e.lot_counter + 1 }, lot)

/-- `CostBasisEngine.get_available`: sum of `remaining` over the asset's
lots. -/
def CostBasisEngine.get_available (e : CostBasisEngine) (asset : String) : ℚ :=
  ((e.lots.filter fun l => decide (l.asset = strUpper asset)).map
    Lot.remaining).sum

/-- FIFO comparator: ascending `acquired_date` (`key=lambda x: x.acquired_date`). -/
def fifoLE (a b : Lot) : Prop := a.acquired_date ≤ b.acquired_date

instance : DecidableRel fifoLE := fun a b =>
  inferInstanceAs (Decidable (a.acquired_date ≤ b.acquired_date))

/-- LIFO comparator: `sorted(..., reverse=True)` on `acquired_date`; for a
stable sort this is sorting with the flipped comparator. -/
def lifoLE (a b : Lot) : Prop := b.acquired_date ≤ a.acquired_date

instance : DecidableRel lifoLE := fun a b =>
  inferInstanceAs (Decidable (b.acquired_date ≤ a.acquired_date))

/-- HIFO comparator: `sorted(..., reverse=True)` on `cost_basis_per_unit`. -/
def hifoLE (a b : Lot) : Prop :=
  b.cost_basis_per_unit ≤ a.cost_basis_per_unit

instance : DecidableRel hifoLE := fun a b =>
  inferInstanceAs (Decidable (b.cost_basis_per_unit ≤ a.cost_basis_per_unit))

/-- `CostBasisEngine._get_lots_in_order`: the asset's lots, filtered to
`remaining > 0`, sorted per the method (unknown methods fall back to
FIFO). -/
def CostBasisEngine.getLotsInOrder (e : CostBasisEngine) (asset : String) :
    List Lot :=
  let lots := e.lots.filter fun l => decide (l.asset = strUpper asset)
  let lots := lots.filter fun l => decide (0 < l.remaining)
  if e.method = "fifo" then List.insertionSort fifoLE lots
  else if e.method = "lifo" then List.insertionSort lifoLE lots
  else if e.method = "hifo" then List.insertionSort hifoLE lots
  else List.insertionSort fifoLE lots

/-- The take schedule of the `for lot in lots` loop of `dispose`: walks the
ordered candidates, skipping exhausted lots, taking
`min(remaining, lot.remaining)` from each until the requested amount is
covered.  Each emitted pair is (the lot as it was read, the amount taken
from it). -/
def takeSchedule : List Lot → ℚ → List (Lot × ℚ)
  | [], _ => []
  | lot :: rest, remaining =>
    if remaining ≤ 0 then []
    else if lot.remaining ≤ 0 then takeSchedule rest remaining
    else
      let take := min remaining lot.remaining
      (lot, take) :: takeSchedule rest (remaining - take)

/-- The `DisposalResult` built by one iteration of the `dispose` loop. -/
def mkResult (asset : String) (quantity proceeds_per_unit fees : ℚ)
    (disposed_date : ℤ) (lot : Lot) (take : ℚ) : DisposalResult :=
  let cost_basis := take * lot.cost_basis_per_unit
  let fee_portion := if 0 < quantity then take / quantity * fees else 0
  let proceeds := take * proceeds_per_unit - fee_portion
  { asset := asset, quantity := take, proceeds := proceeds,
    cost_basis := cost_basis, gain_loss := proceeds - cost_basis,
    acquired_date := lot.acquired_date, disposed_date := disposed_date,
    is_long_term := decide (LONG_TERM_DAYS ≤ disposed_date - lot.acquired_date),
    lot_id := lot.lot_id }

/-- `lot.remaining -= take` for the lot a schedule entry touched: in Python
the loop mutates the shared lot object in place; here the ledger entry is
located by its (unique) lot id. -/
def applyTake (lots : List Lot) (s : Lot × ℚ) : List Lot :=
  lots.map fun l =>
    if l.lot_id = s.1.lot_id then { l with remaining := l.remaining - s.2 }
    else l

/-- All in-place `remaining` updates of one `dispose` call. -/
def applyTakes (lots : List Lot) (steps : List (Lot × ℚ)) : List Lot :=
  steps.foldl applyTake lots

/-- The take schedule of one `dispose` call against the engine's ordered
candidate lots. -/
def disposeSteps (e : CostBasisEngine) (asset : String) (quantity : ℚ) :
    List (Lot × ℚ) :=
  takeSchedule (e.getLotsInOrder asset) quantity

/-- `CostBasisEngine.dispose`: checks inventory, walks the ordered lots,
emits one result per touched lot, decrements each touched lot's
`remaining`, and appends the results to the engine's disposal log. -/
def CostBasisEngine.dispose (e : CostBasisEngine) (asset : String)
    (quantity proceeds_per_unit : ℚ) (disposed_date : ℤ) (fees : ℚ) :
    Except InsufficientInventory (CostBasisEngine × List DisposalResult) :=
  if e.get_available asset < quantity then
    .error { asset := strUpper asset, requested := quantity,
             available := e.get_available asset }
  else
    .ok ({ e with
            lots := applyTakes e.lots (disposeSteps e asset quantity),
            disposals := e.disposals ++ (disposeSteps e asset quantity).map
              fun s => mkResult (strUpper asset) quantity proceeds_per_unit fees
                disposed_date s.1 s.2 },
         (disposeSteps e asset quantity).map fun s =>
           mkResult (strUpper asset) quantity proceeds_per_unit fees
             disposed_date s.1 s.2)

/-- The results of a `dispose` call (empty if it raised). -/
def CostBasisEngine.disposeResults (e : CostBasisEngine) (asset : String)
    (quantity proceeds_per_unit : ℚ) (disposed_date : ℤ) (fees : ℚ) :
    List DisposalResult :=
  match e.dispose asset quantity proceeds_per_unit disposed_date fees with
  | .ok (_, results) => results
  | .error _ => []

/-- The engine state after a `dispose` call (unchanged if it raised, since
the Python code raises before any mutation). -/
def CostBasisEngine.disposeEngine (e : CostBasisEngine) (asset : String)
    (quantity proceeds_per_unit : ℚ) (disposed_date : ℤ) (fees : ℚ) :
    CostBasisEngine :=
  match e.dispose asset quantity proceeds_per_unit disposed_date fees with
  | .ok (e', _) => e'
  | .error _ => e

/-- One engine-level operation: an `add_lot` or a `dispose` call. -/
inductive Op where
  | add (asset : String) (quantity cost_per_unit : ℚ) (acquired_date : ℤ)
      (fees : ℚ)
  | disp (asset : String) (quantity proceeds_per_unit : ℚ)
      (disposed_date : ℤ) (fees : ℚ)

/-- Run one operation against the engine. -/
def runOp (e : CostBasisEngine) : Op → CostBasisEngine
  | .add a q c d f => (e.add_lot a q c d f).1
  | .disp a q p d f => e.disposeEngine a q p d f

/-- Run a finite sequence of operations on a freshly constructed engine. -/
def runOps (method : String) (ops : List Op) : CostBasisEngine :=
  ops.foldl runOp (mkEngine method)

/-- The `add` operations of a sequence respect the caller's contract
`quantity > 0` (spec §4.1). -/
def addQuantityPos : Op → Prop
  | .add _ q _ _ _ => 0 < q
  | .disp _ _ _ _ _ => True

/-!  Tax engine (`tax_engine.py`).  A normalized transaction dict is
modelled as a record; `tx.get("price")` with its `None`-check becomes an
`Option ℚ`.  The dict outputs built for disposals and income events are
modelled as records with the same fields; Python's `float(...)` conversions
at the output boundary are modelled as the identity on ℚ. -/

/-- A normalized transaction (`tx` dict). -/
structure Tx where
  date : ℤ
  type : String
  asset : String
  quantity : ℚ
  price : Option ℚ
  fee : ℚ
  deriving DecidableEq

/-- `DISPOSAL_TYPES` of tax_engine.py. -/
def DISPOSAL_TYPES : List String := ["sell", "trade", "spend", "convert"]

/-- `INCOME_TYPES` of tax_engine.py. -/
def INCOME_TYPES : List String :=
  ["staking", "airdrop", "mining", "interest", "income"]

/-- `ACQUISITION_TYPES` of tax_engine.py. -/
def ACQUISITION_TYPES : List String :=
  ["buy", "receive", "staking", "airdrop", "mining", "interest", "income"]

/-- `NON_TAXABLE_TYPES` of tax_engine.py. -/
def NON_TAXABLE_TYPES : List String :=
  ["transfer", "transfer_in", "transfer_out"]

/-- The skipped stablecoin/fiat symbols of `TaxEngine.calculate`. -/
def STABLE_ASSETS : List String := ["USD", "USDC", "USDT", "DAI", "BUSD"]

/-- `price is None or price == 0`. -/
def priceMissing (tx : Tx) : Bool :=
  match tx.price with
  | none => true
  | some p => decide (p = 0)

/-- The disposal dict appended by `TaxEngine.calculate` for each
`DisposalResult`. -/
structure DisposalRecord where
  date_acquired : ℤ
  date_sold : ℤ
  asset : String
  quantity : ℚ
  proceeds : ℚ
  cost_basis : ℚ
  gain_loss : ℚ
  is_long_term : Bool
  holding_days : ℤ
  lot_id : ℕ
  deriving DecidableEq

/-- Conversion of a `DisposalResult` into the classifier's output dict. -/
def resultToRecord (r : DisposalResult) : DisposalRecord :=
  { date_acquired := r.acquired_date, date_sold := r.disposed_date,
    asset := r.asset, quantity := r.quantity, proceeds := r.proceeds,
    cost_basis := r.cost_basis, gain_loss := r.gain_loss,
    is_long_term := r.is_long_term, holding_days := r.holding_days,
    lot_id := r.lot_id }

/-- The income-event dict appended by `TaxEngine.calculate`. -/
structure IncomeEvent where
  date : ℤ
  type : String
  asset : String
  quantity : ℚ
  fair_market_value : ℚ
  price_per_unit : ℚ
  deriving DecidableEq

/-- The loop state of `TaxEngine.calculate`: the (mutated) cost engine and
the accumulating `disposals`, `income_events` and `skipped` lists. -/
structure CalcState where
  engine : CostBasisEngine
  disposals : List DisposalRecord
  income_events : List IncomeEvent
  skipped : List Tx
  deriving DecidableEq

/-- One iteration of the `for tx in transactions` loop of
`TaxEngine.calculate`.  An uncaught `InsufficientInventory` from the cost
engine would propagate out of the loop, hence the `Except`. -/
def calcStep (st : CalcState) (tx : Tx) :
    Except InsufficientInventory CalcState :=
  if strUpper tx.asset ∈ STABLE_ASSETS then .ok st
  else if tx.type ∈ NON_TAXABLE_TYPES then .ok st
  else if tx.type ∈ ACQUISITION_TYPES then
    if priceMissing tx then .ok { st with skipped := st.skipped ++ [tx] }
    else
      let cost_per_unit := tx.price.getD 0
      let engine :=
        (st.engine.add_lot tx.asset tx.quantity cost_per_unit tx.date tx.fee).1
      if tx.type ∈ INCOME_TYPES then
        .ok { st with
                engine := engine,
                income_events := st.income_events ++
                  [{ date := tx.date, type := tx.type,
                     asset := strUpper tx.asset, quantity := tx.quantity,
                     fair_market_value := tx.quantity * cost_per_unit,
                     price_per_unit := cost_per_unit }] }
      else .ok { st with engine := engine }
  else if tx.type ∈ DISPOSAL_TYPES then
    if priceMissing tx then .ok { st with skipped := st.skipped ++ [tx] }
    else
      let proceeds_per_unit := tx.price.getD 0
      let available := st.engine.get_available tx.asset
      let quantity := if available < tx.quantity then available else tx.quantity
      if 0 < quantity then
        match st.engine.dispose tx.asset quantity proceeds_per_unit tx.date
            tx.fee with
        | .error err => .error err
        | .ok (engine, results) =>
          .ok { st with
                  engine := engine,
                  disposals := st.disposals ++ results.map resultToRecord }
      else .ok st
  else .ok { st with skipped := st.skipped ++ [tx] }

/-- Comparator of the classifier's `sorted(transactions, key=lambda x: x["date"])`. -/
def txDateLE (a b : Tx) : Prop := a.date ≤ b.date

instance : DecidableRel txDateLE := fun a b =>
  inferInstanceAs (Decidable (a.date ≤ b.date))

instance : IsTotal Tx txDateLE := ⟨fun a b => le_total a.date b.date⟩

instance : IsTrans Tx txDateLE := ⟨fun _ _ _ h1 h2 => le_trans h1 h2⟩

/-- The classifier's defensive stable sort of the transaction stream by
date (tax_engine.py line 57). -/
def sortTxs (txs : List Tx) : List Tx := List.insertionSort txDateLE txs

/-- `CostBasisEngine.get_summary` output. -/
structure Summary where
  total_proceeds : ℚ
  total_cost_basis : ℚ
  total_gain_loss : ℚ
  short_term_gain : ℚ
  short_term_loss : ℚ
  long_term_gain : ℚ
  long_term_loss : ℚ
  disposal_count : ℕ
  deriving DecidableEq

/-- `CostBasisEngine.get_summary`. -/
def CostBasisEngine.get_summary (e : CostBasisEngine) : Summary :=
  if e.disposals = [] then
    { total_proceeds := 0, total_cost_basis := 0, total_gain_loss := 0,
      short_term_gain := 0, short_term_loss := 0, long_term_gain := 0,
      long_term_loss := 0, disposal_count := 0 }
  else
    let short_term := e.disposals.filter fun d => !d.is_long_term
    let long_term := e.disposals.filter fun d => d.is_long_term
    { total_proceeds := (e.disposals.map DisposalResult.proceeds).sum,
      total_cost_basis := (e.disposals.map DisposalResult.cost_basis).sum,
      total_gain_loss := (e.disposals.map DisposalResult.gain_loss).sum,
      short_term_gain :=
        (((short_term.filter fun d => decide (0 < d.gain_loss)).map
          DisposalResult.gain_loss)).sum,
      short_term_loss :=
        (((short_term.filter fun d => decide (d.gain_loss < 0)).map
          DisposalResult.gain_loss)).sum,
      long_term_gain :=
        (((long_term.filter fun d => decide (0 < d.gain_loss)).map
          DisposalResult.gain_loss)).sum,
      long_term_loss :=
        (((long_term.filter fun d => decide (d.gain_loss < 0)).map
          DisposalResult.gain_loss)).sum,
      disposal_count := e.disposals.length }

/-- The result dict of `TaxEngine.calculate` (the final engine state stands
in for the in-place mutation of the caller's `cost_engine`). -/
structure TaxResult where
  disposals : List DisposalRecord
  income_events : List IncomeEvent
  summary : Summary
  method : String
  skipped_count : ℕ
  engine : CostBasisEngine
  deriving DecidableEq

/-- Builds the classifier's output from the final loop state. -/
def calcOutput (st : CalcState) : TaxResult :=
  { disposals := st.disposals, income_events := st.income_events,
    summary := st.engine.get_summary, method := st.engine.method,
    skipped_count := st.skipped.length, engine := st.engine }

/-- The `for tx in transactions` loop of `TaxEngine.calculate`: runs
`calcStep` over the list in order; an uncaught exception from the cost
engine aborts the loop. -/
def calcLoop : CalcState → List Tx → Except InsufficientInventory CalcState
  | st, [] => .ok st
  | st, tx :: rest =>
    match calcStep st tx with
    | .error err => .error err
    | .ok st' => calcLoop st' rest

/-- `TaxEngine.calculate`: sorts the transactions by date, runs the
per-transaction loop over them, and assembles the output. -/
def TaxEngine.calculate (transactions : List Tx)
    (cost_engine : CostBasisEngine) :
    Except InsufficientInventory TaxResult :=
  match calcLoop
      { engine := cost_engine, disposals := [], income_events := [],
        skipped := [] } (sortTxs transactions) with
  | .error err => .error err
  | .ok st => .ok (calcOutput st)

/-- Modelled from the spec: the classifier as claim C9 describes it,
processing the transactions in exactly the order supplied, with no
re-sort.  (The source `TaxEngine.calculate` sorts first; this variant is
the comparison point for the refinement claim C9.) -/
def calculateNoSort (transactions : List Tx)
    (cost_engine : CostBasisEngine) :
    Except InsufficientInventory TaxResult :=
  match calcLoop
      { engine := cost_engine, disposals := [], income_events := [],
        skipped := [] } transactions with
  | .error err => .error err
  | .ok st => .ok (calcOutput st)

/-!  Derived observables and invariants used by the verification. -/

/-- Per-asset consumed quantity: sum over the asset's lots of
`quantity - remaining`. -/
def deficit (lots : List Lot) (a : String) : ℚ :=
  ((lots.filter fun l => decide (l.asset = a)).map
    fun l => l.quantity - l.remaining).sum

/-- Per-asset disposed quantity: sum of the `quantity` fields of the
engine's recorded `DisposalResult`s for that asset. -/
def recorded (e : CostBasisEngine) (a : String) : ℚ :=
  ((e.disposals.filter fun d => decide (d.asset = a)).map
    DisposalResult.quantity).sum

/-- Structural engine invariant: the ledger's lot ids strictly increase in
insertion order (hence are distinct) and are all at most the counter. -/
def EngineInv (e : CostBasisEngine) : Prop :=
  (e.lots.map Lot.lot_id).Pairwise (· < ·) ∧
  ∀ i ∈ e.lots.map Lot.lot_id, i ≤ e.lot_counter

/-- Conservation: for every asset, consumed quantity equals recorded
disposed quantity. -/
def Conserv (e : CostBasisEngine) : Prop :=
  ∀ a, deficit e.lots a = recorded e a

/-- Lot bounds: `0 ≤ remaining ≤ quantity` for every lot of the ledger. -/
def Bounds (e : CostBasisEngine) : Prop :=
  ∀ l ∈ e.lots, 0 ≤ l.remaining ∧ l.remaining ≤ l.quantity

/-- The candidate order claimed for latest-first by the spec: strictly
descending `acquired_date`, ties broken by descending lot id. -/
def lifoClaimLT (a b : Lot) : Prop :=
  b.acquired_date < a.acquired_date ∨
    (a.acquired_date = b.acquired_date ∧ b.lot_id < a.lot_id)

instance : DecidableRel lifoClaimLT := fun a b =>
  inferInstanceAs (Decidable (b.acquired_date < a.acquired_date ∨
    (a.acquired_date = b.acquired_date ∧ b.lot_id < a.lot_id)))

/-- The candidate order latest-first actually produces: strictly descending
`acquired_date`, ties broken by ascending lot id (Python's stable sort
keeps equal-key lots in insertion order). -/
def lifoStableLT (a b : Lot) : Prop :=
  b.acquired_date < a.acquired_date ∨
    (a.acquired_date = b.acquired_date ∧ a.lot_id < b.lot_id)

instance : DecidableRel lifoStableLT := fun a b =>
  inferInstanceAs (Decidable (b.acquired_date < a.acquired_date ∨
    (a.acquired_date = b.acquired_date ∧ a.lot_id < b.lot_id)))

instance : DecidablePred addQuantityPos := fun op =>
  match op with
  | .add _ q _ _ _ => inferInstanceAs (Decidable (0 < q))
  | .disp _ _ _ _ _ => inferInstanceAs (Decidable True)

instance : IsTotal Lot fifoLE := ⟨fun a b => le_total a.acquired_date b.acquired_date⟩

instance : IsTrans Lot fifoLE := ⟨fun _ _ _ h1 h2 => le_trans h1 h2⟩

/-!  Helper lemmas. -/

theorem applyTake_map_lot_id (lots : List Lot) (s : Lot × ℚ) :
    (applyTake lots s).map Lot.lot_id = lots.map Lot.lot_id := by
  unfold applyTake
  rw [List.map_map]
  apply List.map_congr_left
  intro l _
  by_cases h : l.lot_id = s.1.lot_id <;> simp [h]

theorem applyTakes_map_lot_id (steps : List (Lot × ℚ)) :
    ∀ lots : List Lot,
      (applyTakes lots steps).map Lot.lot_id = lots.map Lot.lot_id := by
  induction steps with
  | nil => intro lots; rfl
  | cons s rest ih =>
    intro lots
    show (applyTakes (applyTake lots s) rest).map Lot.lot_id = _
    rw [ih, applyTake_map_lot_id]

theorem mem_applyTake_of_ne {lots : List Lot} {s : Lot × ℚ} {l : Lot}
    (hl : l ∈ lots) (hne : l.lot_id ≠ s.1.lot_id) : l ∈ applyTake lots s := by
  unfold applyTake
  have : (fun l : Lot =>
      if l.lot_id = s.1.lot_id then { l with remaining := l.remaining - s.2 }
      else l) l = l := by simp [hne]
  exact this ▸ List.mem_map_of_mem _ hl

theorem applyTake_eq_of_forall_ne {lots : List Lot} {s : Lot × ℚ}
    (h : ∀ l ∈ lots, l.lot_id ≠ s.1.lot_id) : applyTake lots s = lots := by
  unfold applyTake
  conv_rhs => rw [← List.map_id lots]
  apply List.map_congr_left
  intro l hl
  simp [h l hl]

theorem eq_of_mem_of_lot_id_eq {lots : List Lot} {a b : Lot}
    (hnd : (lots.map Lot.lot_id).Nodup) (ha : a ∈ lots) (hb : b ∈ lots)
    (h : a.lot_id = b.lot_id) : a = b :=
  List.inj_on_of_nodup_map hnd ha hb h

theorem takeSchedule_fst_sublist (cands : List Lot) (rem : ℚ) :
    List.Sublist ((takeSchedule cands rem).map Prod.fst) cands := by
  induction cands generalizing rem with
  | nil => simp [takeSchedule]
  | cons lot rest ih =>
    unfold takeSchedule
    by_cases h1 : rem ≤ 0
    · simp [h1]
    · rw [if_neg h1]
      by_cases h2 : lot.remaining ≤ 0
      · rw [if_pos h2]
        exact (ih rem).cons lot
      · rw [if_neg h2]
        exact (ih _).cons₂ lot

theorem mem_of_mem_takeSchedule {cands : List Lot} {rem : ℚ} {s : Lot × ℚ}
    (hs : s ∈ takeSchedule cands rem) : s.1 ∈ cands :=
  (takeSchedule_fst_sublist cands rem).subset (List.mem_map_of_mem _ hs)

theorem takeSchedule_take_bounds {cands : List Lot} {rem : ℚ} {s : Lot × ℚ}
    (hs : s ∈ takeSchedule cands rem) : 0 < s.2 ∧ s.2 ≤ s.1.remaining := by
  induction cands generalizing rem with
  | nil => simp [takeSchedule] at hs
  | cons lot rest ih =>
    unfold takeSchedule at hs
    by_cases h1 : rem ≤ 0
    · simp [h1] at hs
    · rw [if_neg h1] at hs
      by_cases h2 : lot.remaining ≤ 0
      · rw [if_pos h2] at hs
        exact ih hs
      · rw [if_neg h2] at hs
        rcases List.mem_cons.mp hs with h | h
        · subst h
          constructor
          · exact lt_min (lt_of_not_le h1) (lt_of_not_le h2)
          · exact min_le_right _ _
        · exact ih h

theorem takeSchedule_fst_initial_segment {cands : List Lot}
    (hpos : ∀ l ∈ cands, 0 < l.remaining) (rem : ℚ) :
    (takeSchedule cands rem).map Prod.fst =
      cands.take (takeSchedule cands rem).length := by
  induction cands generalizing rem with
  | nil => simp [takeSchedule]
  | cons lot rest ih =>
    unfold takeSchedule
    by_cases h1 : rem ≤ 0
    · simp [h1]
    · rw [if_neg h1, if_neg (not_le.mpr (hpos lot (List.mem_cons_self lot rest)))]
      simp only [List.map_cons, List.length_cons, List.take_succ_cons]
      rw [ih (fun l hl => hpos l (List.mem_cons_of_mem lot hl))]

theorem takeSchedule_sum {cands : List Lot}
    (hpos : ∀ l ∈ cands, 0 < l.remaining) :
    ∀ rem : ℚ, 0 ≤ rem →
      ((takeSchedule cands rem).map Prod.snd).sum =
        min rem ((cands.map Lot.remaining).sum) := by
  induction cands with
  | nil =>
    intro rem hrem
    simp [takeSchedule, hrem]
  | cons lot rest ih =>
    intro rem hrem
    have hlot : 0 < lot.remaining := hpos lot (List.mem_cons_self lot rest)
    have hrest : ∀ l ∈ rest, 0 < l.remaining :=
      fun l hl => hpos l (List.mem_cons_of_mem lot hl)
    have hrestsum : 0 ≤ (rest.map Lot.remaining).sum := by
      apply List.sum_nonneg
      intro x hx
      rcases List.mem_map.mp hx with ⟨l, hl, rfl⟩
      exact le_of_lt (hrest l hl)
    unfold takeSchedule
    by_cases h1 : rem ≤ 0
    · have : rem = 0 := le_antisymm h1 hrem
      subst this
      simp only [if_pos le_rfl, List.map_nil, List.sum_nil, List.map_cons,
        List.sum_cons]
      exact (min_eq_left (add_nonneg (le_of_lt hlot) hrestsum)).symm
    · rw [if_neg h1, if_neg (not_le.mpr hlot)]
      simp only [List.map_cons, List.sum_cons]
      rw [ih hrest (rem - min rem lot.remaining) (by
        rcases le_total rem lot.remaining with h | h
        · rw [min_eq_left h]; simp
        · rw [min_eq_right h]; linarith)]
      rcases le_total rem lot.remaining with h | h
      · rw [min_eq_left h, sub_self, min_eq_left hrestsum, add_zero,
          min_eq_left (le_trans h (le_add_of_nonneg_right hrestsum))]
      · rw [min_eq_right h]
        rcases le_total (rem - lot.remaining) ((rest.map Lot.remaining).sum)
          with h2 | h2
        · rw [min_eq_left h2,
            min_eq_left (by linarith : rem ≤ lot.remaining + (rest.map Lot.remaining).sum)]
          ring
        · rw [min_eq_right h2,
            min_eq_right (by linarith : lot.remaining + (rest.map Lot.remaining).sum ≤ rem)]

theorem deficit_nil (a : String) : deficit [] a = 0 := rfl

theorem deficit_cons (x : Lot) (xs : List Lot) (a : String) :
    deficit (x :: xs) a =
      (if x.asset = a then x.quantity - x.remaining else 0) + deficit xs a := by
  by_cases h : x.asset = a <;>
    simp [deficit, List.filter_cons, h]

theorem deficit_append (l1 l2 : List Lot) (a : String) :
    deficit (l1 ++ l2) a = deficit l1 a + deficit l2 a := by
  simp [deficit, List.filter_append]

theorem deficit_applyTake {lots : List Lot} {s : Lot × ℚ} {a : String}
    (hmem : s.1 ∈ lots) (hnd : (lots.map Lot.lot_id).Nodup) :
    deficit (applyTake lots s) a =
      deficit lots a + (if s.1.asset = a then s.2 else 0) := by
  obtain ⟨sl, st⟩ := s
  dsimp only at hmem ⊢
  induction lots with
  | nil => simp at hmem
  | cons x xs ih =>
    simp only [List.map_cons, List.nodup_cons] at hnd
    have happ : applyTake (x :: xs) (sl, st) =
        (if x.lot_id = sl.lot_id then
          { x with remaining := x.remaining - st } else x) ::
          applyTake xs (sl, st) := by
      simp [applyTake]
    rcases List.mem_cons.mp hmem with hx | hx
    · subst hx
      have hxs : applyTake xs (sl, st) = xs := by
        apply applyTake_eq_of_forall_ne
        intro l hl hlid
        apply hnd.1
        rw [← hlid]
        exact List.mem_map_of_mem Lot.lot_id hl
      rw [happ, if_pos rfl, hxs, deficit_cons, deficit_cons]
      dsimp only
      by_cases ha : sl.asset = a
      · rw [if_pos ha, if_pos ha, if_pos ha]
        ring
      · rw [if_neg ha, if_neg ha, if_neg ha]
        ring
    · have hxid : x.lot_id ≠ sl.lot_id := by
        intro hcontra
        exact hnd.1 (hcontra ▸ List.mem_map_of_mem Lot.lot_id hx)
      rw [happ, if_neg hxid, deficit_cons, deficit_cons, ih hnd.2 hx]
      ring


theorem deficit_applyTakes {steps : List (Lot × ℚ)} :
    ∀ {lots : List Lot} {a : String},
      (lots.map Lot.lot_id).Nodup →
      (steps.map fun s => s.1.lot_id).Nodup →
      (∀ s ∈ steps, s.1 ∈ lots) →
      deficit (applyTakes lots steps) a =
        deficit lots a +
          ((steps.filter fun s => decide (s.1.asset = a)).map Prod.snd).sum := by
  induction steps with
  | nil => intro lots a _ _ _; simp [applyTakes]
  | cons s rest ih =>
    intro lots a hnd hsnd hmem
    simp only [List.map_cons, List.nodup_cons] at hsnd
    have hs1 : s.1 ∈ lots := hmem s (List.mem_cons_self s rest)
    have hnd' : ((applyTake lots s).map Lot.lot_id).Nodup := by
      rw [applyTake_map_lot_id]; exact hnd
    have hmem' : ∀ s' ∈ rest, s'.1 ∈ applyTake lots s := by
      intro s' hs'
      apply mem_applyTake_of_ne (hmem s' (List.mem_cons_of_mem s hs'))
      intro hcontra
      exact hsnd.1 (hcontra ▸ List.mem_map_of_mem (fun t => t.1.lot_id) hs')
    show deficit (applyTakes (applyTake lots s) rest) a = _
    rw [ih hnd' hsnd.2 hmem', deficit_applyTake hs1 hnd]
    by_cases ha : s.1.asset = a
    · rw [if_pos ha, List.filter_cons, if_pos (by simp [ha])]
      simp only [List.map_cons, List.sum_cons]
      ring
    · rw [if_neg ha, List.filter_cons, if_neg (by simp [ha])]
      ring

theorem bounds_applyTakes {steps : List (Lot × ℚ)} :
    ∀ {lots : List Lot},
      (lots.map Lot.lot_id).Nodup →
      (steps.map fun s => s.1.lot_id).Nodup →
      (∀ s ∈ steps, s.1 ∈ lots) →
      (∀ s ∈ steps, 0 ≤ s.2 ∧ s.2 ≤ s.1.remaining) →
      (∀ l ∈ lots, 0 ≤ l.remaining ∧ l.remaining ≤ l.quantity) →
      ∀ l ∈ applyTakes lots steps, 0 ≤ l.remaining ∧ l.remaining ≤ l.quantity := by
  induction steps with
  | nil => intro lots _ _ _ _ hb; exact hb
  | cons s rest ih =>
    intro lots hnd hsnd hmem htake hb
    simp only [List.map_cons, List.nodup_cons] at hsnd
    have hs1 : s.1 ∈ lots := hmem s (List.mem_cons_self s rest)
    have hstep := htake s (List.mem_cons_self s rest)
    show ∀ l ∈ applyTakes (applyTake lots s) rest, _
    apply ih
    · rw [applyTake_map_lot_id]; exact hnd
    · exact hsnd.2
    · intro s' hs'
      apply mem_applyTake_of_ne (hmem s' (List.mem_cons_of_mem s hs'))
      intro hcontra
      exact hsnd.1 (hcontra ▸ List.mem_map_of_mem (fun t => t.1.lot_id) hs')
    · intro s' hs'
      exact htake s' (List.mem_cons_of_mem s hs')
    · intro l hl
      simp only [applyTake, List.mem_map] at hl
      rcases hl with ⟨l0, hl0, rfl⟩
      rcases hb l0 hl0 with ⟨hb1, hb2⟩
      by_cases hid : l0.lot_id = s.1.lot_id
      · have heq : l0 = s.1 := eq_of_mem_of_lot_id_eq hnd hl0 hs1 hid
        rw [if_pos hid]
        refine ⟨?_, ?_⟩
        · show 0 ≤ l0.remaining - s.2
          rw [heq]
          linarith [hstep.2]
        · show l0.remaining - s.2 ≤ l0.quantity
          linarith [hstep.1]
      · rw [if_neg hid]
        exact ⟨hb1, hb2⟩

theorem engineInv_mkEngine (m : String) : EngineInv (mkEngine m) := by
  constructor <;> simp [mkEngine, EngineInv]

theorem engineInv_add_lot {e : CostBasisEngine} (h : EngineInv e)
    (asset : String) (q c : ℚ) (d : ℤ) (f : ℚ) :
    EngineInv (e.add_lot asset q c d f).1 := by
  obtain ⟨h1, h2⟩ := h
  constructor
  · simp only [CostBasisEngine.add_lot, List.map_append, List.map_cons,
      List.map_nil]
    rw [List.pairwise_append]
    refine ⟨h1, List.pairwise_singleton _ _, ?_⟩
    intro i hi j hj
    simp only [List.mem_singleton] at hj
    subst hj
    exact Nat.lt_succ_of_le (h2 i hi)
  · intro i hi
    simp only [CostBasisEngine.add_lot, List.map_append, List.map_cons,
      List.map_nil, List.mem_append, List.mem_singleton] at hi
    rcases hi with hi | hi
    · exact le_trans (h2 i hi) (Nat.le_succ _)
    · subst hi
      exact le_refl _

theorem getLotsInOrder_perm (e : CostBasisEngine) (asset : String) :
    List.Perm (e.getLotsInOrder asset)
      ((e.lots.filter fun l => decide (l.asset = strUpper asset)).filter
        fun l => decide (0 < l.remaining)) := by
  unfold CostBasisEngine.getLotsInOrder
  split_ifs <;> exact List.perm_insertionSort _ _

theorem mem_getLotsInOrder {e : CostBasisEngine} {asset : String} {l : Lot}
    (h : l ∈ e.getLotsInOrder asset) :
    l ∈ e.lots ∧ l.asset = strUpper asset ∧ 0 < l.remaining := by
  have := (getLotsInOrder_perm e asset).mem_iff.mp h
  simp only [List.mem_filter, decide_eq_true_eq] at this
  exact ⟨this.1.1, this.1.2, this.2⟩

theorem getLotsInOrder_pos {e : CostBasisEngine} {asset : String} :
    ∀ l ∈ e.getLotsInOrder asset, 0 < l.remaining :=
  fun _ h => (mem_getLotsInOrder h).2.2

theorem getLotsInOrder_ids_nodup {e : CostBasisEngine} {asset : String}
    (h : (e.lots.map Lot.lot_id).Nodup) :
    ((e.getLotsInOrder asset).map Lot.lot_id).Nodup := by
  apply (((getLotsInOrder_perm e asset).map Lot.lot_id).nodup_iff).mpr
  apply List.Sublist.nodup _ h
  exact List.Sublist.map Lot.lot_id
    (List.Sublist.trans (List.filter_sublist _) (List.filter_sublist _))

theorem disposeSteps_ids_nodup {e : CostBasisEngine} {asset : String}
    {q : ℚ} (h : (e.lots.map Lot.lot_id).Nodup) :
    ((disposeSteps e asset q).map fun s => s.1.lot_id).Nodup := by
  have h1 : ((disposeSteps e asset q).map fun s => s.1.lot_id) =
      ((disposeSteps e asset q).map Prod.fst).map Lot.lot_id := by
    rw [List.map_map]; rfl
  rw [h1]
  exact List.Sublist.nodup
    (List.Sublist.map Lot.lot_id (takeSchedule_fst_sublist _ _))
    (getLotsInOrder_ids_nodup h)

theorem mem_lots_of_mem_disposeSteps {e : CostBasisEngine} {asset : String}
    {q : ℚ} {s : Lot × ℚ} (hs : s ∈ disposeSteps e asset q) :
    s.1 ∈ e.lots :=
  (mem_getLotsInOrder (mem_of_mem_takeSchedule hs)).1

theorem disposeSteps_asset {e : CostBasisEngine} {asset : String} {q : ℚ}
    {s : Lot × ℚ} (hs : s ∈ disposeSteps e asset q) :
    s.1.asset = strUpper asset :=
  (mem_getLotsInOrder (mem_of_mem_takeSchedule hs)).2.1

theorem dispose_ok {e : CostBasisEngine} {asset : String}
    {quantity proceeds_per_unit : ℚ} {disposed_date : ℤ} {fees : ℚ}
    (h : ¬ e.get_available asset < quantity) :
    e.dispose asset quantity proceeds_per_unit disposed_date fees =
      .ok ({ e with
              lots := applyTakes e.lots (disposeSteps e asset quantity),
              disposals := e.disposals ++
                (disposeSteps e asset quantity).map fun s =>
                  mkResult (strUpper asset) quantity proceeds_per_unit fees
                    disposed_date s.1 s.2 },
           (disposeSteps e asset quantity).map fun s =>
             mkResult (strUpper asset) quantity proceeds_per_unit fees
               disposed_date s.1 s.2) := by
  unfold CostBasisEngine.dispose
  rw [if_neg h]

theorem dispose_error {e : CostBasisEngine} {asset : String}
    {quantity proceeds_per_unit : ℚ} {disposed_date : ℤ} {fees : ℚ}
    (h : e.get_available asset < quantity) :
    e.dispose asset quantity proceeds_per_unit disposed_date fees =
      .error { asset := strUpper asset, requested := quantity,
               available := e.get_available asset } := by
  unfold CostBasisEngine.dispose
  rw [if_pos h]

theorem engineInv_disposeEngine {e : CostBasisEngine} (h : EngineInv e)
    (asset : String) (q p : ℚ) (d : ℤ) (f : ℚ) :
    EngineInv (e.disposeEngine asset q p d f) := by
  unfold CostBasisEngine.disposeEngine
  by_cases hq : e.get_available asset < q
  · rw [dispose_error hq]
    exact h
  · rw [dispose_ok hq]
    obtain ⟨h1, h2⟩ := h
    constructor
    · show ((applyTakes e.lots _).map Lot.lot_id).Pairwise (· < ·)
      rw [applyTakes_map_lot_id]
      exact h1
    · show ∀ i ∈ (applyTakes e.lots _).map Lot.lot_id, _
      rw [applyTakes_map_lot_id]
      exact h2

theorem conserv_disposeEngine {e : CostBasisEngine} (hinv : EngineInv e)
    (hc : Conserv e) (asset : String) (q p : ℚ) (d : ℤ) (f : ℚ) :
    Conserv (e.disposeEngine asset q p d f) := by
  unfold CostBasisEngine.disposeEngine
  by_cases hq : e.get_available asset < q
  · rw [dispose_error hq]
    exact hc
  · rw [dispose_ok hq]
    intro a
    have hnd : (e.lots.map Lot.lot_id).Nodup :=
      hinv.1.imp (fun h => Nat.ne_of_lt h)
    show deficit (applyTakes e.lots (disposeSteps e asset q)) a = _
    rw [deficit_applyTakes hnd (disposeSteps_ids_nodup hnd)
      (fun s hs => mem_lots_of_mem_disposeSteps hs)]
    unfold recorded
    show _ = ((_ ++ (disposeSteps e asset q).map fun s =>
        mkResult (strUpper asset) q p f d s.1 s.2).filter _ |>.map _).sum
    rw [List.filter_append, List.map_append, List.sum_append]
    rw [hc a]
    have hre : recorded e a =
        ((e.disposals.filter fun d0 => decide (d0.asset = a)).map
          DisposalResult.quantity).sum := rfl
    rw [hre]
    congr 1
    have hfm : (((disposeSteps e asset q).map fun s =>
        mkResult (strUpper asset) q p f d s.1 s.2).filter
          fun d0 => decide (d0.asset = a)) =
        ((disposeSteps e asset q).filter fun s =>
          decide (strUpper asset = a)).map fun s =>
            mkResult (strUpper asset) q p f d s.1 s.2 := by
      rw [List.filter_map]
      rfl
    rw [hfm]
    have hfc : ((disposeSteps e asset q).filter fun s =>
        decide (s.1.asset = a)) =
        ((disposeSteps e asset q).filter fun s =>
          decide (strUpper asset = a)) := by
      apply List.filter_congr
      intro s hs
      rw [disposeSteps_asset hs]
    rw [hfc]
    by_cases ha : strUpper asset = a
    · rw [List.filter_eq_self.mpr (by intro s _; simp [ha])]
      rw [List.map_map]
      rfl
    · rw [List.filter_eq_nil_iff.mpr (by intro s _; simp [ha])]
      rfl

theorem conserv_mkEngine (m : String) : Conserv (mkEngine m) := by
  intro a
  simp [mkEngine, deficit, recorded]

theorem conserv_add_lot {e : CostBasisEngine} (hc : Conserv e)
    (asset : String) (q c : ℚ) (d : ℤ) (f : ℚ) :
    Conserv (e.add_lot asset q c d f).1 := by
  intro a
  show deficit (e.lots ++ [_]) a = _
  rw [deficit_append, deficit_cons, deficit_nil]
  have : recorded (e.add_lot asset q c d f).1 a = recorded e a := rfl
  rw [this, ← hc a]
  split_ifs <;> ring

theorem bounds_mkEngine (m : String) : Bounds (mkEngine m) := by
  intro l hl
  simp [mkEngine] at hl

theorem bounds_add_lot {e : CostBasisEngine} (hb : Bounds e) {q : ℚ}
    (hq : 0 < q) (asset : String) (c : ℚ) (d : ℤ) (f : ℚ) :
    Bounds (e.add_lot asset q c d f).1 := by
  intro l hl
  simp only [CostBasisEngine.add_lot, List.mem_append,
    List.mem_singleton] at hl
  rcases hl with hl | hl
  · exact hb l hl
  · subst hl
    exact ⟨le_of_lt hq, le_refl _⟩

theorem bounds_disposeEngine {e : CostBasisEngine} (hinv : EngineInv e)
    (hb : Bounds e) (asset : String) (q p : ℚ) (d : ℤ) (f : ℚ) :
    Bounds (e.disposeEngine asset q p d f) := by
  unfold CostBasisEngine.disposeEngine
  by_cases hq : e.get_available asset < q
  · rw [dispose_error hq]
    exact hb
  · rw [dispose_ok hq]
    have hnd : (e.lots.map Lot.lot_id).Nodup :=
      hinv.1.imp (fun h => Nat.ne_of_lt h)
    intro l hl
    exact bounds_applyTakes hnd (disposeSteps_ids_nodup hnd)
      (fun s hs => mem_lots_of_mem_disposeSteps hs)
      (fun s hs => ⟨le_of_lt (takeSchedule_take_bounds hs).1,
        (takeSchedule_take_bounds hs).2⟩)
      hb l hl

theorem foldl_runOp_inv (P : CostBasisEngine → Prop) (C : Op → Prop)
    (hP : ∀ e op, C op → P e → P (runOp e op)) :
    ∀ (ops : List Op) (e : CostBasisEngine), (∀ op ∈ ops, C op) → P e →
      P (ops.foldl runOp e) := by
  intro ops
  induction ops with
  | nil => intro e _ he; exact he
  | cons op rest ih =>
    intro e hC he
    exact ih (runOp e op)
      (fun o ho => hC o (List.mem_cons_of_mem op ho))
      (hP e op (hC op (List.mem_cons_self op rest)) he)

theorem engineInv_conserv_runOps (m : String) (ops : List Op) :
    EngineInv (runOps m ops) ∧ Conserv (runOps m ops) := by
  apply foldl_runOp_inv (fun e => EngineInv e ∧ Conserv e) (fun _ => True)
  · intro e op _ ⟨hinv, hc⟩
    cases op with
    | add a q c d f =>
      exact ⟨engineInv_add_lot hinv a q c d f, conserv_add_lot hc a q c d f⟩
    | disp a q p d f =>
      exact ⟨engineInv_disposeEngine hinv a q p d f,
        conserv_disposeEngine hinv hc a q p d f⟩
  · intro op _; trivial
  · exact ⟨engineInv_mkEngine m, conserv_mkEngine m⟩

theorem engineInv_bounds_runOps (m : String) {ops : List Op}
    (hq : ∀ op ∈ ops, addQuantityPos op) :
    EngineInv (runOps m ops) ∧ Bounds (runOps m ops) := by
  apply foldl_runOp_inv (fun e => EngineInv e ∧ Bounds e) addQuantityPos
  · intro e op hop ⟨hinv, hb⟩
    cases op with
    | add a q c d f =>
      exact ⟨engineInv_add_lot hinv a q c d f, bounds_add_lot hb hop a c d f⟩
    | disp a q p d f =>
      exact ⟨engineInv_disposeEngine hinv a q p d f,
        bounds_disposeEngine hinv hb a q p d f⟩
  · exact hq
  · exact ⟨engineInv_mkEngine m, bounds_mkEngine m⟩

theorem runOp_method (e : CostBasisEngine) (op : Op) :
    (runOp e op).method = e.method := by
  cases op with
  | add a q c d f => rfl
  | disp a q p d f =>
    show (e.disposeEngine a q p d f).method = e.method
    unfold CostBasisEngine.disposeEngine
    by_cases hq : e.get_available a < q
    · rw [dispose_error hq]
    · rw [dispose_ok hq]

theorem runOps_method (m : String) (ops : List Op) :
    (runOps m ops).method = strLower m := by
  apply foldl_runOp_inv (fun e => e.method = strLower m) (fun _ => True)
  · intro e op _ he
    rw [runOp_method, he]
  · intro op _; trivial
  · rfl

theorem orderedInsert_lifo_stable {a : Lot} {m : List Lot}
    (hm : m.Sorted lifoStableLT) (ha : ∀ b ∈ m, a.lot_id < b.lot_id) :
    (List.orderedInsert lifoLE a m).Sorted lifoStableLT := by
  induction m with
  | nil =>
    rw [List.orderedInsert]
    exact List.sorted_singleton a
  | cons b m ih =>
    rw [List.orderedInsert]
    by_cases h : lifoLE a b
    · rw [if_pos h]
      rw [List.sorted_cons]
      refine ⟨?_, hm⟩
      intro c hc
      have hcb : c.acquired_date ≤ b.acquired_date := by
        rcases List.mem_cons.mp hc with rfl | hc'
        · exact le_refl _
        · rcases (List.sorted_cons.mp hm).1 c hc' with h1 | h1
          · exact le_of_lt h1
          · exact le_of_eq h1.1.symm
      have hba : b.acquired_date ≤ a.acquired_date := h
      rcases lt_or_eq_of_le (le_trans hcb hba) with h2 | h2
      · exact Or.inl h2
      · exact Or.inr ⟨h2.symm, ha c hc⟩
    · rw [if_neg h]
      rw [List.sorted_cons]
      constructor
      · intro c hc
        rw [List.mem_orderedInsert] at hc
        rcases hc with rfl | hc'
        · exact Or.inl (lt_of_not_le h)
        · exact (List.sorted_cons.mp hm).1 c hc'
      · exact ih (List.sorted_cons.mp hm).2
          (fun c hc => ha c (List.mem_cons_of_mem b hc))

theorem insertionSort_lifo_stable {l : List Lot}
    (hl : l.Pairwise fun x y => x.lot_id < y.lot_id) :
    (List.insertionSort lifoLE l).Sorted lifoStableLT := by
  induction l with
  | nil => exact List.sorted_nil
  | cons a l ih =>
    rw [List.insertionSort]
    apply orderedInsert_lifo_stable
    · exact ih (List.pairwise_cons.mp hl).2
    · intro b hb
      exact (List.pairwise_cons.mp hl).1 b
        ((List.mem_insertionSort lifoLE).mp hb)

theorem sum_remaining_filter_pos (l : List Lot)
    (h : ∀ x ∈ l, 0 ≤ x.remaining) :
    ((l.filter fun x => decide (0 < x.remaining)).map Lot.remaining).sum =
      (l.map Lot.remaining).sum := by
  induction l with
  | nil => rfl
  | cons x xs ih =>
    have hx := h x (List.mem_cons_self x xs)
    have hxs := fun y hy => h y (List.mem_cons_of_mem x hy)
    rw [List.filter_cons]
    by_cases hpos : 0 < x.remaining
    · rw [if_pos (by simp [hpos])]
      simp only [List.map_cons, List.sum_cons]
      rw [ih hxs]
    · rw [if_neg (by simp [hpos])]
      have hz : x.remaining = 0 := le_antisymm (not_lt.mp hpos) hx
      simp only [List.map_cons, List.sum_cons, hz, zero_add]
      exact ih hxs

theorem getLotsInOrder_sum {e : CostBasisEngine} {asset : String}
    (hb : ∀ l ∈ e.lots, 0 ≤ l.remaining) :
    ((e.getLotsInOrder asset).map Lot.remaining).sum =
      e.get_available asset := by
  rw [((getLotsInOrder_perm e asset).map Lot.remaining).sum_eq]
  exact sum_remaining_filter_pos _
    (fun x hx => hb x (List.mem_filter.mp hx).1)

theorem disposeResults_is_long_term {e : CostBasisEngine} {asset : String}
    {q p : ℚ} {d : ℤ} {f : ℚ} {r : DisposalResult}
    (hr : r ∈ e.disposeResults asset q p d f) :
    r.is_long_term = decide (LONG_TERM_DAYS ≤ d - r.acquired_date) := by
  unfold CostBasisEngine.disposeResults at hr
  by_cases hq : e.get_available asset < q
  · rw [dispose_error hq] at hr
    simp at hr
  · rw [dispose_ok hq] at hr
    dsimp only at hr
    rcases List.mem_map.mp hr with ⟨s, _, rfl⟩
    rfl

theorem disposeResults_lot_id_initial_segment (e : CostBasisEngine) (asset : String)
    (q p : ℚ) (d : ℤ) (f : ℚ) :
    (e.disposeResults asset q p d f).map DisposalResult.lot_id =
      ((e.getLotsInOrder asset).map Lot.lot_id).take
        (e.disposeResults asset q p d f).length := by
  unfold CostBasisEngine.disposeResults
  by_cases hq : e.get_available asset < q
  · rw [dispose_error hq]
    rfl
  · rw [dispose_ok hq]
    dsimp only
    rw [List.map_map, List.length_map]
    have h1 : (DisposalResult.lot_id ∘ fun s : Lot × ℚ =>
        mkResult (strUpper asset) q p f d s.1 s.2) =
        Lot.lot_id ∘ Prod.fst := rfl
    rw [h1, ← List.map_map]
    unfold disposeSteps
    rw [takeSchedule_fst_initial_segment getLotsInOrder_pos q, List.map_take]

theorem getLotsInOrder_fallback {e : CostBasisEngine}
    (h1 : e.method ≠ "fifo") (h2 : e.method ≠ "lifo")
    (h3 : e.method ≠ "hifo") (asset : String) :
    e.getLotsInOrder asset =
      ({ e with method := "fifo" } : CostBasisEngine).getLotsInOrder asset := by
  unfold CostBasisEngine.getLotsInOrder
  dsimp only
  rw [if_neg h1, if_neg h2, if_neg h3, if_pos rfl]

theorem dispose_method_fallback (m : String) (lots : List Lot) (ctr : ℕ)
    (disps : List DisposalResult)
    (h1 : m ≠ "fifo") (h2 : m ≠ "lifo") (h3 : m ≠ "hifo")
    (asset : String) (q p : ℚ) (d : ℤ) (f : ℚ) :
    (CostBasisEngine.mk m lots ctr disps).dispose asset q p d f =
      Except.map (fun r => ({ r.1 with method := m }, r.2))
        ((CostBasisEngine.mk "fifo" lots ctr disps).dispose asset q p d f) := by
  have havail : (CostBasisEngine.mk m lots ctr disps).get_available asset =
      (CostBasisEngine.mk "fifo" lots ctr disps).get_available asset := rfl
  have horder : (CostBasisEngine.mk m lots ctr disps).getLotsInOrder asset =
      (CostBasisEngine.mk "fifo" lots ctr disps).getLotsInOrder asset :=
    getLotsInOrder_fallback h1 h2 h3 asset
  unfold CostBasisEngine.dispose
  rw [havail]
  by_cases hq : (CostBasisEngine.mk "fifo" lots ctr disps).get_available
      asset < q
  · rw [if_pos hq, if_pos hq]
    rfl
  · rw [if_neg hq, if_neg hq]
    unfold disposeSteps
    rw [horder]
    rfl

/-!  Ground evaluation facts used by the concrete witnesses (rational
arithmetic does not reduce in the kernel, so concrete runs are evaluated
by `simp`/`norm_num` with these rewrites). -/

theorem strUpper_BTC : strUpper "BTC" = "BTC" := rfl

theorem strLower_fifo : strLower "fifo" = "fifo" := rfl

theorem strLower_lifo : strLower "lifo" = "lifo" := rfl

/-!  Claim theorems. -/

/-- C1: Conservation — after every finite sequence of `add_lot` and
`dispose` operations on one `CostBasisEngine`, for every asset the sum over
that asset's lots of (quantity minus remaining) equals the sum of the
`quantity` fields of all `DisposalResult`s recorded for that asset. -/
theorem C1_conservation (method : String) (ops : List Op) (asset : String) :
    deficit (runOps method ops).lots asset =
      recorded (runOps method ops) asset :=
  (engineInv_conserv_runOps method ops).2 asset

/-- C2: Lot bounds invariant — when every `add_lot` in the operation
sequence is called with `quantity > 0` (the caller's contract), every lot
of the ledger satisfies `0 ≤ remaining ≤ quantity` after every operation,
including after every successful dispose. -/
theorem C2_lot_bounds (method : String) (ops : List Op)
    (hq : ∀ op ∈ ops, addQuantityPos op) :
    ∀ l ∈ (runOps method ops).lots,
      0 ≤ l.remaining ∧ l.remaining ≤ l.quantity :=
  (engineInv_bounds_runOps method hq).2

/-- Witness for C2 at a concrete operation sequence (one acquisition, one
partial disposal). -/
theorem C2_lot_bounds_witness :
    (∀ op ∈ [Op.add "BTC" 1 40000 0 0, Op.disp "BTC" (1/2) 50000 10 0],
      addQuantityPos op) ∧
    ∀ l ∈ (runOps "fifo"
        [Op.add "BTC" 1 40000 0 0, Op.disp "BTC" (1/2) 50000 10 0]).lots,
      0 ≤ l.remaining ∧ l.remaining ≤ l.quantity := by
  have h : ∀ op ∈ [Op.add "BTC" 1 40000 0 0, Op.disp "BTC" (1/2) 50000 10 0],
      addQuantityPos op := by decide
  exact ⟨h, C2_lot_bounds "fifo" _ h⟩

theorem getLotsInOrder_lifo_sorted {e : CostBasisEngine}
    (hm : e.method = "lifo") (hinv : EngineInv e) (asset : String) :
    (e.getLotsInOrder asset).Pairwise lifoStableLT := by
  unfold CostBasisEngine.getLotsInOrder
  dsimp only
  rw [hm]
  rw [if_neg (by decide), if_pos rfl]
  apply insertionSort_lifo_stable
  have h1 : e.lots.Pairwise (fun x y : Lot => x.lot_id < y.lot_id) :=
    List.pairwise_map.mp hinv.1
  exact (h1.filter _).filter _

/-- C3 counterexample: on a latest-first engine holding two lots acquired
on the same date, the candidate order is NOT descending by lot id on the
tie — the engine returns lot ids [1, 2] (insertion order), so the claimed
order relation (descending date, ties by descending id) fails. -/
theorem C3_counterexample :
    ¬ ((runOps "lifo" [Op.add "BTC" 1 10 5 0, Op.add "BTC" 1 20 5 0]).getLotsInOrder
        "BTC").Pairwise lifoClaimLT ∧
    ((runOps "lifo" [Op.add "BTC" 1 10 5 0, Op.add "BTC" 1 20 5 0]).getLotsInOrder
        "BTC").map Lot.lot_id = [1, 2] := by
  constructor
  · decide
  · decide

/-- C3 (amended): for latest-first (lifo), the candidate lots are ordered
by descending `acquired_at` with ties broken by ASCENDING lot id (Python's
stable sort keeps insertion order on equal keys), and the emitted
`DisposalResult`s of a dispose call touch lots in exactly that order: their
lot ids form the initial segment of the candidate order. -/
theorem C3_latest_first_order (ops : List Op) (asset : String)
    (q p : ℚ) (d : ℤ) (f : ℚ) :
    ((runOps "lifo" ops).getLotsInOrder asset).Pairwise lifoStableLT ∧
    ((runOps "lifo" ops).disposeResults asset q p d f).map
        DisposalResult.lot_id =
      (((runOps "lifo" ops).getLotsInOrder asset).map Lot.lot_id).take
        ((runOps "lifo" ops).disposeResults asset q p d f).length := by
  constructor
  · exact getLotsInOrder_lifo_sorted (runOps_method "lifo" ops)
      (engineInv_conserv_runOps "lifo" ops).1 asset
  · exact disposeResults_lot_id_initial_segment _ asset q p d f

/-- C5: Long-term boundary — every disposal portion matched against a lot
is classified long-term when the holding period is exactly 365 days, and
short-term when it is exactly 364 days. -/
theorem C5_long_term_boundary (e : CostBasisEngine) (asset : String)
    (q p : ℚ) (d : ℤ) (f : ℚ) (r : DisposalResult)
    (hr : r ∈ e.disposeResults asset q p d f) :
    (d - r.acquired_date = 365 → r.is_long_term = true) ∧
    (d - r.acquired_date = 364 → r.is_long_term = false) := by
  have h := disposeResults_is_long_term hr
  constructor
  · intro h365
    rw [h, h365]
    decide
  · intro h364
    rw [h, h364]
    decide

/-- Witness for C5: a lot acquired on day 0, disposed on day 365 (long
term) and, on a fresh engine, on day 364 (short term). -/
theorem C5_long_term_boundary_witness :
    (mkResult "BTC" 1 50000 0 365
      { asset := "BTC", quantity := 1, cost_per_unit := 40000,
        acquired_date := 0, remaining := 1, fees := 0, lot_id := 1 }
      1).is_long_term = true ∧
    (mkResult "BTC" 1 50000 0 364
      { asset := "BTC", quantity := 1, cost_per_unit := 40000,
        acquired_date := 0, remaining := 1, fees := 0, lot_id := 1 }
      1).is_long_term = false := by
  have hres365 : (runOps "fifo" [Op.add "BTC" 1 40000 0 0]).disposeResults
      "BTC" 1 50000 365 0 =
      [mkResult "BTC" 1 50000 0 365
        { asset := "BTC", quantity := 1, cost_per_unit := 40000,
          acquired_date := 0, remaining := 1, fees := 0, lot_id := 1 } 1] := by
    norm_num [runOps, runOp, mkEngine, CostBasisEngine.add_lot,
      CostBasisEngine.disposeResults, CostBasisEngine.dispose,
      CostBasisEngine.get_available, CostBasisEngine.getLotsInOrder,
      disposeSteps, takeSchedule, List.filter, List.insertionSort,
      List.orderedInsert, strUpper_BTC, strLower_fifo]
  have hres364 : (runOps "fifo" [Op.add "BTC" 1 40000 0 0]).disposeResults
      "BTC" 1 50000 364 0 =
      [mkResult "BTC" 1 50000 0 364
        { asset := "BTC", quantity := 1, cost_per_unit := 40000,
          acquired_date := 0, remaining := 1, fees := 0, lot_id := 1 } 1] := by
    norm_num [runOps, runOp, mkEngine, CostBasisEngine.add_lot,
      CostBasisEngine.disposeResults, CostBasisEngine.dispose,
      CostBasisEngine.get_available, CostBasisEngine.getLotsInOrder,
      disposeSteps, takeSchedule, List.filter, List.insertionSort,
      List.orderedInsert, strUpper_BTC, strLower_fifo]
  constructor
  · exact (C5_long_term_boundary
      (runOps "fifo" [Op.add "BTC" 1 40000 0 0]) "BTC" 1 50000 365 0 _
      (by rw [hres365]; exact List.mem_singleton_self _)).1 (by decide)
  · exact (C5_long_term_boundary
      (runOps "fifo" [Op.add "BTC" 1 40000 0 0]) "BTC" 1 50000 364 0 _
      (by rw [hres364]; exact List.mem_singleton_self _)).2 (by decide)

/-- C7: Insufficient-inventory error — `dispose` raises exactly when the
requested quantity exceeds the available amount for the asset, and the
raised error reports the requested and the available amounts; otherwise it
returns normally. -/
theorem C7_insufficient_inventory (e : CostBasisEngine) (asset : String)
    (q p : ℚ) (d : ℤ) (f : ℚ) :
    (e.get_available asset < q →
      e.dispose asset q p d f =
        .error { asset := strUpper asset, requested := q,
                 available := e.get_available asset }) ∧
    (q ≤ e.get_available asset →
      ∃ out, e.dispose asset q p d f = .ok out) := by
  constructor
  · intro h
    exact dispose_error h
  · intro h
    exact ⟨_, dispose_ok (not_lt.mpr h)⟩

/-- Witness for C7: disposing from an empty engine raises with requested 1
and available 0; disposing within inventory returns normally. -/
theorem C7_insufficient_inventory_witness :
    (mkEngine "fifo").dispose "BTC" 1 5 0 0 =
      .error { asset := "BTC", requested := 1, available := 0 } ∧
    ∃ out, (runOps "fifo" [Op.add "BTC" 1 40000 0 0]).dispose "BTC" 1 5 0 0 =
      .ok out := by
  constructor
  · have h := (C7_insufficient_inventory (mkEngine "fifo") "BTC" 1 5 0 0).1
      (by decide)
    rw [h]
    decide
  · apply (C7_insufficient_inventory
      (runOps "fifo" [Op.add "BTC" 1 40000 0 0]) "BTC" 1 5 0 0).2
    norm_num [runOps, runOp, mkEngine, CostBasisEngine.add_lot,
      CostBasisEngine.get_available, List.filter, strUpper_BTC, strLower_fifo]

/-- C4 counterexample: the FIFO scenario (1.0 @ 40000 on day 0, 0.5 @
65000 on day 152, dispose 0.75 @ 100000 on day 371) yields ONE
DisposalResult, not two: 0.75 < 1.0, so the whole disposal is matched by
the first lot and the loop stops. -/
theorem C4_counterexample :
    ((runOps "fifo" [Op.add "BTC" 1 40000 0 0,
        Op.add "BTC" (1/2) 65000 152 0]).disposeResults
      "BTC" (3/4) 100000 371 0).length = 1 ∧
    ((runOps "fifo" [Op.add "BTC" 1 40000 0 0,
        Op.add "BTC" (1/2) 65000 152 0]).disposeResults
      "BTC" (3/4) 100000 371 0).length ≠ 2 := by
  have h : (runOps "fifo" [Op.add "BTC" 1 40000 0 0,
      Op.add "BTC" (1/2) 65000 152 0]).disposeResults
        "BTC" (3/4) 100000 371 0 =
      [mkResult "BTC" (3/4) 100000 0 371
        { asset := "BTC", quantity := 1, cost_per_unit := 40000,
          acquired_date := 0, remaining := 1, fees := 0, lot_id := 1 }
        (3/4)] := by
    norm_num [runOps, runOp, mkEngine, CostBasisEngine.add_lot,
      CostBasisEngine.disposeResults, CostBasisEngine.dispose,
      CostBasisEngine.get_available, CostBasisEngine.getLotsInOrder,
      disposeSteps, takeSchedule, List.filter, List.insertionSort,
      List.orderedInsert, strUpper_BTC, strLower_fifo, min_def, fifoLE]
  rw [h]
  constructor
  · rfl
  · decide

/-- C4 (amended): the FIFO scenario yields exactly ONE result: 0.75 taken
from the first lot, cost_basis = 30000, proceeds = 75000 minus the fee
share (which is the whole fee, since 0.75 is the full requested
quantity), gain_loss = 45000 minus the fee, and is_long_term = true. -/
theorem C4_fifo_first_lot (fees : ℚ) :
    (runOps "fifo" [Op.add "BTC" 1 40000 0 0,
        Op.add "BTC" (1/2) 65000 152 0]).disposeResults
      "BTC" (3/4) 100000 371 fees =
    [{ asset := "BTC", quantity := 3/4, proceeds := 75000 - fees,
       cost_basis := 30000, gain_loss := 45000 - fees,
       acquired_date := 0, disposed_date := 371, is_long_term := true,
       lot_id := 1 }] := by
  norm_num [runOps, runOp, mkEngine, CostBasisEngine.add_lot,
    CostBasisEngine.disposeResults, CostBasisEngine.dispose,
    CostBasisEngine.get_available, CostBasisEngine.getLotsInOrder,
    disposeSteps, takeSchedule, List.filter, List.insertionSort,
    List.orderedInsert, strUpper_BTC, strLower_fifo, min_def, fifoLE,
    mkResult, Lot.cost_basis_per_unit, Lot.total_cost, LONG_TERM_DAYS]
  ring

/-- C6: Fee proportionality — for every successful dispose with
`0 < quantity ≤ available(asset)` on a reachable engine, the fee portions
deducted from proceeds across the emitted DisposalResults
(`r.quantity * proceeds_per_unit - r.proceeds` recovers each portion) sum
to exactly the input fees (exact in ℚ; Python Decimal agrees within the
rounding tolerance the spec allows). -/
theorem C6_fee_proportionality (method : String) (ops : List Op)
    (hops : ∀ op ∈ ops, addQuantityPos op) (asset : String) (q p : ℚ)
    (d : ℤ) (f : ℚ) (hq : 0 < q)
    (hav : q ≤ (runOps method ops).get_available asset) :
    (((runOps method ops).disposeResults asset q p d f).map
      fun r => r.quantity * p - r.proceeds).sum = f := by
  obtain ⟨hinv, hb⟩ := engineInv_bounds_runOps method hops
  have hnl : ¬ (runOps method ops).get_available asset < q := not_lt.mpr hav
  unfold CostBasisEngine.disposeResults
  rw [dispose_ok hnl]
  dsimp only
  rw [List.map_map]
  have hfun : ((fun r : DisposalResult => r.quantity * p - r.proceeds) ∘
      fun s : Lot × ℚ => mkResult (strUpper asset) q p f d s.1 s.2) =
      fun s : Lot × ℚ => s.2 * (f / q) := by
    funext s
    show (mkResult (strUpper asset) q p f d s.1 s.2).quantity * p -
      (mkResult (strUpper asset) q p f d s.1 s.2).proceeds = s.2 * (f / q)
    unfold mkResult
    dsimp only
    rw [if_pos hq]
    ring
  rw [hfun, List.sum_map_mul_right]
  have hsum : ((disposeSteps (runOps method ops) asset q).map Prod.snd).sum
      = q := by
    unfold disposeSteps
    rw [takeSchedule_sum getLotsInOrder_pos q (le_of_lt hq),
      getLotsInOrder_sum (fun l hl => (hb l hl).1)]
    exact min_eq_left hav
  rw [hsum, mul_comm, div_mul_cancel₀ f (ne_of_gt hq)]

/-- Witness for C6: two 1-unit lots, disposing 1.5 units with a fee of 10
spread across both lots; the fee portions sum to 10. -/
theorem C6_fee_proportionality_witness :
    (((runOps "fifo" [Op.add "BTC" 1 40 0 0, Op.add "BTC" 1 50 1 0]).disposeResults
        "BTC" (3/2) 100 5 10).map
      fun r => r.quantity * 100 - r.proceeds).sum = 10 := by
  apply C6_fee_proportionality "fifo"
    [Op.add "BTC" 1 40 0 0, Op.add "BTC" 1 50 1 0] (by decide) "BTC" (3/2)
    100 5 10 (by norm_num)
  norm_num [runOps, runOp, mkEngine, CostBasisEngine.add_lot,
    CostBasisEngine.get_available, List.filter, strUpper_BTC, strLower_fifo]

/-- C9 counterexample: the classifier DOES re-sort the transaction stream
(tax_engine.py line 57).  Feeding a sell dated after a buy, but supplied
first, the classifier still processes the buy first and emits one
disposal; processing in exactly the order supplied (the spec-modelled
`calculateNoSort`) would clamp the sell to 0 and emit none. -/
theorem C9_counterexample :
    TaxEngine.calculate
        [⟨10, "sell", "BTC", 1, some 200, 0⟩,
         ⟨0, "buy", "BTC", 1, some 100, 0⟩] (mkEngine "fifo") ≠
      calculateNoSort
        [⟨10, "sell", "BTC", 1, some 200, 0⟩,
         ⟨0, "buy", "BTC", 1, some 100, 0⟩] (mkEngine "fifo") := by
  have hA : Except.map (fun r : TaxResult => r.disposals.length)
      (TaxEngine.calculate
        [⟨10, "sell", "BTC", 1, some 200, 0⟩,
         ⟨0, "buy", "BTC", 1, some 100, 0⟩] (mkEngine "fifo")) = .ok 1 := by
    norm_num [TaxEngine.calculate, calcLoop, calcStep, calcOutput, sortTxs,
      List.insertionSort, List.orderedInsert, txDateLE, mkEngine,
      CostBasisEngine.add_lot, CostBasisEngine.get_available,
      CostBasisEngine.dispose, CostBasisEngine.getLotsInOrder, disposeSteps,
      takeSchedule, applyTakes, applyTake, mkResult, resultToRecord,
      priceMissing, List.filter, strUpper_BTC, strLower_fifo, min_def,
      fifoLE, Except.map,
      show "BTC" ∉ STABLE_ASSETS from by decide,
      show "buy" ∉ NON_TAXABLE_TYPES from by decide,
      show "buy" ∈ ACQUISITION_TYPES from by decide,
      show "buy" ∉ INCOME_TYPES from by decide,
      show "sell" ∉ NON_TAXABLE_TYPES from by decide,
      show "sell" ∉ ACQUISITION_TYPES from by decide,
      show "sell" ∈ DISPOSAL_TYPES from by decide,
      show decide ((100 : ℚ) = 0) = false from by decide,
      show decide ((200 : ℚ) = 0) = false from by decide]
  have hB : Except.map (fun r : TaxResult => r.disposals.length)
      (calculateNoSort
        [⟨10, "sell", "BTC", 1, some 200, 0⟩,
         ⟨0, "buy", "BTC", 1, some 100, 0⟩] (mkEngine "fifo")) = .ok 0 := by
    norm_num [calculateNoSort, calcLoop, calcStep, calcOutput, mkEngine,
      CostBasisEngine.add_lot, CostBasisEngine.get_available,
      CostBasisEngine.dispose, CostBasisEngine.getLotsInOrder, disposeSteps,
      takeSchedule, applyTakes, applyTake, mkResult, resultToRecord,
      priceMissing, List.filter, strUpper_BTC, strLower_fifo, min_def,
      fifoLE, Except.map,
      show "BTC" ∉ STABLE_ASSETS from by decide,
      show "buy" ∉ NON_TAXABLE_TYPES from by decide,
      show "buy" ∈ ACQUISITION_TYPES from by decide,
      show "buy" ∉ INCOME_TYPES from by decide,
      show "sell" ∉ NON_TAXABLE_TYPES from by decide,
      show "sell" ∉ ACQUISITION_TYPES from by decide,
      show "sell" ∈ DISPOSAL_TYPES from by decide,
      show decide ((100 : ℚ) = 0) = false from by decide,
      show decide ((200 : ℚ) = 0) = false from by decide]
  intro hc
  rw [hc, hB] at hA
  simp at hA

/-- C9 (amended): `TaxEngine.calculate` stably re-sorts the supplied
transactions ascending by date before processing, so pre-sorting the input
leaves the computed result unchanged — callers need not supply the stream
in chronological order (only the relative order of equal-date transactions
matters). -/
theorem C9_classifier_sorts (txs : List Tx) (e : CostBasisEngine) :
    TaxEngine.calculate (sortTxs txs) e = TaxEngine.calculate txs e := by
  unfold TaxEngine.calculate
  rw [show sortTxs (sortTxs txs) = sortTxs txs from
    List.Sorted.insertionSort_eq (List.sorted_insertionSort txDateLE txs)]

/-- C10: Unknown-method fallback — for every method string whose
lowercased form is neither fifo, lifo nor hifo, `dispose` behaves exactly
as on an earliest-first (fifo) engine with the same state (same results,
same updated ledger and log, only the stored method string differs), and
the candidate lots are selected in ascending `acquired_date` order. -/
theorem C10_unknown_method (method : String)
    (h1 : strLower method ≠ "fifo") (h2 : strLower method ≠ "lifo")
    (h3 : strLower method ≠ "hifo") (lots : List Lot) (ctr : ℕ)
    (disps : List DisposalResult) (asset : String) (q p : ℚ) (d : ℤ)
    (f : ℚ) :
    (CostBasisEngine.mk (strLower method) lots ctr disps).dispose asset q p
        d f =
      Except.map (fun r => ({ r.1 with method := strLower method }, r.2))
        ((CostBasisEngine.mk "fifo" lots ctr disps).dispose asset q p d f) ∧
    (CostBasisEngine.mk (strLower method) lots ctr disps).getLotsInOrder
        asset =
      (CostBasisEngine.mk "fifo" lots ctr disps).getLotsInOrder asset ∧
    ((CostBasisEngine.mk (strLower method) lots ctr disps).getLotsInOrder
        asset).Pairwise fifoLE := by
  refine ⟨dispose_method_fallback (strLower method) lots ctr disps h1 h2 h3
    asset q p d f, getLotsInOrder_fallback h1 h2 h3 asset, ?_⟩
  rw [getLotsInOrder_fallback h1 h2 h3 asset]
  unfold CostBasisEngine.getLotsInOrder
  dsimp only
  rw [if_pos rfl]
  exact List.sorted_insertionSort fifoLE _

/-- Witness for C10 at the unknown method "average" and a two-lot ledger:
the candidate order equals the fifo engine's candidate order. -/
theorem C10_unknown_method_witness :
    (CostBasisEngine.mk (strLower "average")
        [{ asset := "BTC", quantity := 1, cost_per_unit := 40, acquired_date := 9,
           remaining := 1, fees := 0, lot_id := 1 },
         { asset := "BTC", quantity := 1, cost_per_unit := 50, acquired_date := 2,
           remaining := 1, fees := 0, lot_id := 2 }] 2 []).getLotsInOrder
      "BTC" =
    (CostBasisEngine.mk "fifo"
        [{ asset := "BTC", quantity := 1, cost_per_unit := 40, acquired_date := 9,
           remaining := 1, fees := 0, lot_id := 1 },
         { asset := "BTC", quantity := 1, cost_per_unit := 50, acquired_date := 2,
           remaining := 1, fees := 0, lot_id := 2 }] 2 []).getLotsInOrder
      "BTC" :=
  (C10_unknown_method "average" (by decide) (by decide) (by decide)
    [{ asset := "BTC", quantity := 1, cost_per_unit := 40, acquired_date := 9,
       remaining := 1, fees := 0, lot_id := 1 },
     { asset := "BTC", quantity := 1, cost_per_unit := 50, acquired_date := 2,
       remaining := 1, fees := 0, lot_id := 2 }] 2 [] "BTC" 1 1 0 0).2.1

theorem calcStep_disposal_branch {st : CalcState} {tx : Tx}
    (hstable : strUpper tx.asset ∉ STABLE_ASSETS)
    (hnontax : tx.type ∉ NON_TAXABLE_TYPES)
    (hnonacq : tx.type ∉ ACQUISITION_TYPES)
    (hdisp : tx.type ∈ DISPOSAL_TYPES)
    (hprice : priceMissing tx = false) :
    calcStep st tx =
      (if 0 < (if st.engine.get_available tx.asset < tx.quantity then
          st.engine.get_available tx.asset else tx.quantity) then
        match st.engine.dispose tx.asset
            (if st.engine.get_available tx.asset < tx.quantity then
              st.engine.get_available tx.asset else tx.quantity)
            (tx.price.getD 0) tx.date tx.fee with
        | .error err => .error err
        | .ok (engine, results) =>
          .ok { st with
                  engine := engine,
                  disposals := st.disposals ++ results.map resultToRecord }
      else .ok st) := by
  unfold calcStep
  rw [if_neg hstable, if_neg hnontax, if_neg hnonacq, if_pos hdisp,
    if_neg (by simp [hprice])]

/-- C8: Classifier clamp — for every disposal-class transaction with a
usable price whose quantity exceeds the currently available inventory for
its asset, the classifier behaves exactly as if the quantity had been the
available amount (the clamp), proceeds without raising, and, when the
clamped amount is 0, emits no disposal record for that transaction. -/
theorem C8_classifier_clamp (st : CalcState) (tx : Tx)
    (htype : tx.type ∈ DISPOSAL_TYPES)
    (hprice : priceMissing tx = false)
    (hover : st.engine.get_available tx.asset < tx.quantity) :
    calcStep st tx =
      calcStep st { tx with quantity := st.engine.get_available tx.asset } ∧
    (∃ st', calcStep st tx = .ok st') ∧
    (st.engine.get_available tx.asset = 0 →
      ∀ st', calcStep st tx = .ok st' → st'.disposals = st.disposals) := by
  have hnontax : tx.type ∉ NON_TAXABLE_TYPES := by
    intro hc
    simp only [DISPOSAL_TYPES, NON_TAXABLE_TYPES, List.mem_cons,
      List.not_mem_nil, or_false] at htype hc
    rcases htype with h|h|h|h <;> rcases hc with h2|h2|h2 <;>
      (rw [h] at h2; exact absurd h2 (by decide))
  have hnonacq : tx.type ∉ ACQUISITION_TYPES := by
    intro hc
    simp only [DISPOSAL_TYPES, ACQUISITION_TYPES, List.mem_cons,
      List.not_mem_nil, or_false] at htype hc
    rcases htype with h|h|h|h <;> rcases hc with h2|h2|h2|h2|h2|h2|h2 <;>
      (rw [h] at h2; exact absurd h2 (by decide))
  by_cases hstable : strUpper tx.asset ∈ STABLE_ASSETS
  · have e1 : calcStep st tx = .ok st := by
      unfold calcStep
      rw [if_pos hstable]
    have e2 : calcStep st
        { tx with quantity := st.engine.get_available tx.asset } = .ok st := by
      unfold calcStep
      rw [if_pos hstable]
    refine ⟨e1.trans e2.symm, ⟨st, e1⟩, fun _ st' h => ?_⟩
    rw [e1] at h
    injection h with h
    rw [← h]
  · have e1 := @calcStep_disposal_branch st tx hstable hnontax
      hnonacq htype hprice
    have e2 := @calcStep_disposal_branch st
      { tx with quantity := st.engine.get_available tx.asset }
      hstable hnontax hnonacq htype hprice
    rw [if_pos hover] at e1
    rw [if_neg (lt_irrefl _)] at e2
    refine ⟨e1.trans e2.symm, ?_, ?_⟩
    · rw [e1]
      by_cases h0 : 0 < st.engine.get_available tx.asset
      · rw [if_pos h0,
          dispose_ok (not_lt.mpr (le_refl (st.engine.get_available tx.asset)))]
        exact ⟨_, rfl⟩
      · rw [if_neg h0]
        exact ⟨st, rfl⟩
    · intro h0 st' h
      rw [e1, if_neg (by rw [h0]; exact lt_irrefl 0)] at h
      injection h with h
      rw [← h]

/-- Witness for C8: a sell of 1 BTC against an empty ledger proceeds
without raising. -/
theorem C8_classifier_clamp_witness :
    ∃ st', calcStep
      { engine := mkEngine "fifo", disposals := [], income_events := [],
        skipped := [] }
      ⟨0, "sell", "BTC", 1, some 10, 0⟩ = .ok st' :=
  (C8_classifier_clamp
    { engine := mkEngine "fifo", disposals := [], income_events := [],
      skipped := [] }
    ⟨0, "sell", "BTC", 1, some 10, 0⟩
    (by decide) (by decide) (by decide)).2.1
